import Mathlib

/-!
# CardMaster — verification of the request-validation and persistence core

Shallow embedding of `src/app.js`.  The file concatenates two variants of the
application:

* a *durable* variant (top of the file) whose handlers delegate to a document
  store (`user.create`, `user.findByIdAndUpdate`, ...) and catch every thrown
  error in a catch-all branch;
* an *ephemeral* variant backed by the in-process array `users` and counter
  `userIdCounter`, with inline validation in the `/create` and `/update/:id`
  handlers.

JavaScript strings are sequences of UTF-16 code units; we model them as
`List Nat` of code units.  All string data occurring in the program is ASCII,
and the whitespace class of `trim` / the regex `\s` is modelled by its ASCII
subset (space, tab, LF, VT, FF, CR), which covers every input considered here.
`String.prototype.toLowerCase` is modelled on the ASCII range (`A`-`Z` map to
`a`-`z`), faithful for ASCII data.
-/

deriving instance DecidableEq for Except

namespace CardMaster

/-- JS string = list of UTF-16 code units. -/
abbrev JSString := List Nat

/-- Embed a Lean (ASCII) string literal as a JS string. -/
def jsStr (s : String) : JSString := s.data.map Char.toNat

/-- ASCII part of the JS whitespace class used by `trim` and `\s`. -/
def isJsWs (n : Nat) : Bool := n == 32 || n == 9 || n == 10 || n == 11 || n == 12 || n == 13

/-- `String.prototype.trim`: strip whitespace from both ends. -/
def jsTrim (s : JSString) : JSString :=
  ((s.dropWhile isJsWs).reverse.dropWhile isJsWs).reverse

/-- `String.prototype.toLowerCase` on one ASCII code unit. -/
def lowerUnit (n : Nat) : Nat := if 65 ≤ n ∧ n ≤ 90 then n + 32 else n

/-- `String.prototype.toLowerCase`. -/
def jsToLower (s : JSString) : JSString := s.map lowerUnit

/-- A code unit admissible in a segment of the email regex: `[^\s@]`. -/
def emailUnitOk (n : Nat) : Bool := !isJsWs n && n != 64

/-- All units of the segment match `[^\s@]`. -/
def emailSegOk (s : JSString) : Bool := s.all emailUnitOk

/-- Split a list at the first occurrence of `c`: `some (before, after)`. -/
def splitAtFirst (c : Nat) : JSString → Option (JSString × JSString)
  | [] => none
  | a :: as =>
    if a = c then some ([], as)
    else (splitAtFirst c as).map (fun p => (a :: p.1, p.2))

/-- Is there a `.` (code 46) somewhere in the list with at least one unit after it? -/
def dotWithSuffix : JSString → Bool
  | [] => false
  | [_] => false
  | a :: b :: rest => a == 46 || dotWithSuffix (b :: rest)

/-- The part after `@` matches `[^\s@]+\.[^\s@]+`: non-`@`/non-ws throughout,
and some `.` that is neither the first unit nor the last. -/
def emailTailOk (s : JSString) : Bool :=
  emailSegOk s &&
    (match s with
     | [] => false
     | _ :: t => dotWithSuffix t)

/-- `/^[^\s@]+@[^\s@]+\.[^\s@]+$/.test s` — the email check of both handlers.
Since no segment of the pattern may contain `@`, a match splits the string at
its first (and only) `@`. -/
def emailRegexTest (s : JSString) : Bool :=
  match splitAtFirst 64 s with
  | none => false
  | some (before, after) => !before.isEmpty && emailSegOk before && emailTailOk after

/-- A stored user record (`{_id, name, email, image}`). -/
structure UserRec where
  _id : JSString
  name : JSString
  email : JSString
  image : JSString
deriving DecidableEq

/-- The ephemeral store: the `users` array plus `userIdCounter`. -/
structure StoreState where
  users : List UserRec
  counter : Nat
deriving DecidableEq

/-- A request body `{name, email, image}`; each field may be absent. -/
structure Payload where
  name : Option JSString
  email : Option JSString
  image : Option JSString
deriving DecidableEq

/-- JS truthiness of an optional string: `undefined` and `""` are falsy. -/
def truthy : Option JSString → Bool
  | none => false
  | some s => !s.isEmpty

/-- `Array.prototype.find`: first element satisfying the predicate. -/
def jsFind (p : α → Bool) : List α → Option α
  | [] => none
  | a :: as => if p a then some a else jsFind p as

/-- `Array.prototype.findIndex`, returning `none` for -1. -/
def jsFindIndex (p : α → Bool) : List α → Option Nat
  | [] => none
  | a :: as => if p a then some 0 else (jsFindIndex p as).map (· + 1)

/-- Decimal digits of `n`, least significant first (`fuel ≥ n` for termination). -/
def decDigitsAux : Nat → Nat → List Nat
  | _, 0 => []
  | 0, _ + 1 => []
  | fuel + 1, n + 1 => ((n + 1) % 10) :: decDigitsAux fuel ((n + 1) / 10)

/-- `Number.prototype.toString` for the id counter: decimal notation as a JS string. -/
def natToUnits (n : Nat) : JSString :=
  if n = 0 then [48] else ((decDigitsAux n n).map (fun d => 48 + d)).reverse

/-- The seeded `users` array of the ephemeral variant. -/
def initialUsers : List UserRec :=
  [ { _id := jsStr "1", name := jsStr "Daksh Sharma", email := jsStr "dakshs112@gmail.com",
      image := jsStr "https://t4.ftcdn.net/jpg/01/80/57/69/360_F_180576920_TfIdXSmoBfzW8PaPfxqO1JdYtUYLIpUc.jpg" },
    { _id := jsStr "2", name := jsStr "The Creator", email := jsStr "Tanjiro@DS.com",
      image := jsStr "https://encrypted-tbn0.gstatic.com/images?q=tbn:ANd9GcTBc6_ixylZKPo97MXdP_m33BtHlopHUNjBtg&s" } ]

/-- Initial state: the two seeded users, `userIdCounter = 3`. -/
def initialState : StoreState := { users := initialUsers, counter := 3 }

/-- Failure kinds of the `/create` handler (HTTP 400/409 in the route layer). -/
inductive CreateErr where
  | missingFields
  | invalidEmail
  | duplicateEmail
  | invalidImageUrl
deriving DecidableEq

/-- Failure kinds of the `/update/:id` handler (HTTP 404/400/409). -/
inductive UpdateErr where
  | notFound
  | missingFields
  | invalidEmail
  | duplicateEmail
  | invalidImageUrl
deriving DecidableEq

/-- The id comparison `user._id === userId`. -/
def idPred (userId : JSString) (u : UserRec) : Bool := decide (u._id = userId)

/-- The `/create` duplicate test:
`user.email.toLowerCase() === email.trim().toLowerCase()`. -/
def createDupPred (email : JSString) (u : UserRec) : Bool :=
  decide (jsToLower u.email = jsToLower (jsTrim email))

/-- The `/update/:id` duplicate test: same comparison, excluding the id being
updated (`user._id !== userId`). -/
def updateDupPred (email userId : JSString) (u : UserRec) : Bool :=
  decide (jsToLower u.email = jsToLower (jsTrim email)) && decide (u._id ≠ userId)

/-- `GET /edit/:id`: `users.find(user => user._id === userId)`. -/
def findById (st : StoreState) (userId : JSString) : Option UserRec :=
  jsFind (idPred userId) st.users

/-- The record the `/create` handler pushes: normalized name/email/image and
the id rendered from `userIdCounter`. -/
def newUserOf (st : StoreState) (p : Payload) : UserRec :=
  { _id := natToUnits st.counter,
    name := jsTrim (p.name.getD []),
    email := jsToLower (jsTrim (p.email.getD [])),
    image := if truthy p.image then jsTrim (p.image.getD []) else [] }

/-- `POST /create` of the ephemeral variant.  `urlOk` stands for the platform's
`new URL(·)` parser (success/failure of the constructor); it is a parameter
because the handler only delegates to it.  Returns the handler outcome and the
state of `(users, userIdCounter)` afterwards. -/
def createUser (urlOk : JSString → Bool) (st : StoreState) (p : Payload) :
    Except CreateErr UserRec × StoreState :=
  if ¬ (truthy p.name ∧ truthy p.email) then (.error .missingFields, st)
  else if ¬ emailRegexTest (p.email.getD []) then (.error .invalidEmail, st)
  else if (jsFind (createDupPred (p.email.getD [])) st.users).isSome then
    (.error .duplicateEmail, st)
  else if truthy p.image ∧ jsTrim (p.image.getD []) ≠ [] ∧
      ¬ urlOk (jsTrim (p.image.getD [])) then (.error .invalidImageUrl, st)
  else
    (.ok (newUserOf st p), { users := st.users ++ [newUserOf st p], counter := st.counter + 1 })

/-- The record the `/update/:id` handler writes back:
`{...users[userIndex], name: ..., email: ..., image: ...}` — the spread keeps
`_id`, the three payload fields are normalized. -/
def updatedOf (old : UserRec) (p : Payload) : UserRec :=
  { _id := old._id,
    name := jsTrim (p.name.getD []),
    email := jsToLower (jsTrim (p.email.getD [])),
    image := if truthy p.image then jsTrim (p.image.getD []) else [] }

/-- `POST /update/:id` of the ephemeral variant.  Mirrors the handler's order:
existence of the id is checked first, then required fields, email format,
duplicate email (excluding the id itself), image URL, and only then the
in-place assignment `users[userIndex] = {...users[userIndex], ...}`. -/
def updateUser (urlOk : JSString → Bool) (st : StoreState) (userId : JSString)
    (p : Payload) : Except UpdateErr UserRec × StoreState :=
  match jsFindIndex (idPred userId) st.users with
  | none => (.error .notFound, st)
  | some idx =>
    if ¬ (truthy p.name ∧ truthy p.email) then (.error .missingFields, st)
    else if ¬ emailRegexTest (p.email.getD []) then (.error .invalidEmail, st)
    else if (jsFind (updateDupPred (p.email.getD []) userId) st.users).isSome then
      (.error .duplicateEmail, st)
    else if truthy p.image ∧ jsTrim (p.image.getD []) ≠ [] ∧
        ¬ urlOk (jsTrim (p.image.getD [])) then (.error .invalidImageUrl, st)
    else
      match st.users[idx]? with
      | none => (.error .notFound, st)
      | some old =>
        (.ok (updatedOf old p),
          { users := st.users.set idx (updatedOf old p), counter := st.counter })

/-- `GET /delete/:id` of the ephemeral variant: `findIndex` then `splice(idx, 1)`.
The error case is the 404 branch. -/
def deleteUser (st : StoreState) (userId : JSString) :
    Except Unit UserRec × StoreState :=
  match jsFindIndex (idPred userId) st.users with
  | none => (.error (), st)
  | some idx =>
    match st.users[idx]? with
    | none => (.error (), st)
    | some u => (.ok u, { users := st.users.eraseIdx idx, counter := st.counter })

/-! ## Durable variant

The handlers at the top of `src/app.js` await a document-store operation and
wrap it in `try/catch`.  The store itself (`./model/user`) is external to the
handlers; its outcome is modelled as a value of `Except DbErr α` fed to the
handler, where `DbErr` distinguishes the native signals the spec talks about
(duplicate-key, schema-validation) from any other failure. -/

/-- Native failure signals of the underlying document store. -/
inductive DbErr where
  | duplicateKey
  | schemaValidation
  | connection
  | other
deriving DecidableEq

/-- What a durable-variant handler sends back. -/
inductive HttpResp where
  | redirect (loc : String)
  | respond (status : Nat) (body : String)
deriving DecidableEq

/-- Durable `POST /create`: redirect on success, catch-all 500 otherwise. -/
def durableCreate (result : Except DbErr UserRec) : HttpResp :=
  match result with
  | .ok _ => .redirect "/read"
  | .error _ => .respond 500 "Error creating user"

/-- Durable `POST /update/:id`: `findByIdAndUpdate` returns `none` for a
missing id (404); any thrown error hits the catch-all 500. -/
def durableUpdate (result : Except DbErr (Option UserRec)) : HttpResp :=
  match result with
  | .ok none => .respond 404 "User not found"
  | .ok (some _) => .redirect "/read"
  | .error _ => .respond 500 "Error updating user"

/-! ## Helper lemmas: JS array operations -/

theorem jsFind_eq_none {α : Type} {p : α → Bool} {l : List α} :
    jsFind p l = none ↔ ∀ a ∈ l, p a = false := by
  induction l with
  | nil => simp [jsFind]
  | cons a as ih =>
    cases h : p a with
    | true => simp [jsFind, h]
    | false => simp [jsFind, h, ih]

theorem jsFind_eq_some {α : Type} {p : α → Bool} {l : List α} {a : α}
    (h : jsFind p l = some a) : a ∈ l ∧ p a = true := by
  induction l with
  | nil => simp [jsFind] at h
  | cons b bs ih =>
    cases hb : p b with
    | true =>
      simp [jsFind, hb] at h
      subst h
      exact ⟨List.mem_cons_self _ _, hb⟩
    | false =>
      simp [jsFind, hb] at h
      rcases ih h with ⟨hmem, hp⟩
      exact ⟨List.mem_cons_of_mem _ hmem, hp⟩

theorem jsFind_isSome_iff {α : Type} {p : α → Bool} {l : List α} :
    (jsFind p l).isSome = true ↔ ∃ a ∈ l, p a = true := by
  induction l with
  | nil => simp [jsFind]
  | cons a as ih =>
    cases h : p a with
    | true =>
      simp only [jsFind, h, if_true, Option.isSome_some, true_iff]
      exact ⟨a, by simp, h⟩
    | false => simp [jsFind, h, ih]

theorem jsFind_append_of_none {α : Type} {p : α → Bool} {l1 l2 : List α}
    (h : ∀ a ∈ l1, p a = false) : jsFind p (l1 ++ l2) = jsFind p l2 := by
  induction l1 with
  | nil => rfl
  | cons a as ih =>
    have ha : p a = false := h a (List.mem_cons_self _ _)
    simp only [List.cons_append, jsFind, ha, Bool.false_eq_true, if_false]
    exact ih fun b hb => h b (List.mem_cons_of_mem _ hb)

theorem jsFindIndex_eq_none {α : Type} {p : α → Bool} {l : List α} :
    jsFindIndex p l = none ↔ ∀ a ∈ l, p a = false := by
  induction l with
  | nil => simp [jsFindIndex]
  | cons a as ih =>
    cases h : p a with
    | true => simp [jsFindIndex, h]
    | false =>
      simp only [jsFindIndex, h, Bool.false_eq_true, if_false, List.mem_cons]
      cases hfi : jsFindIndex p as with
      | none =>
        simp only [Option.map_none', true_iff]
        intro b hb
        rcases hb with rfl | hb
        · exact h
        · exact ih.mp hfi b hb
      | some j =>
        simp only [Option.map_some']
        constructor
        · intro hc
          exact absurd hc (by simp)
        · intro hall
          exfalso
          rw [ih.mpr fun b hb => hall b (Or.inr hb)] at hfi
          exact Option.noConfusion hfi

theorem jsFindIndex_spec {α : Type} {p : α → Bool} {l : List α} {i : Nat}
    (h : jsFindIndex p l = some i) :
    ∃ a l1 l2, l = l1 ++ a :: l2 ∧ l1.length = i ∧ p a = true ∧
      ∀ b ∈ l1, p b = false := by
  induction l generalizing i with
  | nil => simp [jsFindIndex] at h
  | cons a as ih =>
    cases ha : p a with
    | true =>
      simp [jsFindIndex, ha] at h
      exact ⟨a, [], as, by simp, by simp [← h], ha, by simp⟩
    | false =>
      simp [jsFindIndex, ha] at h
      rcases h with ⟨j, hj, rfl⟩
      rcases ih hj with ⟨b, l1, l2, rfl, hlen, hp, hall⟩
      refine ⟨b, a :: l1, l2, by simp, by simp [hlen], hp, ?_⟩
      intro c hc
      rcases List.mem_cons.mp hc with rfl | hc
      · exact ha
      · exact hall c hc

/-! ## Helper lemmas: positional list operations -/

theorem getAt_append_cons {α : Type} (l1 : List α) (a : α) (l2 : List α) :
    (l1 ++ a :: l2)[l1.length]? = some a := by
  induction l1 with
  | nil => simp
  | cons b bs ih => simpa using ih

theorem eraseIdx_append_cons {α : Type} (l1 : List α) (a : α) (l2 : List α) :
    (l1 ++ a :: l2).eraseIdx l1.length = l1 ++ l2 := by
  induction l1 with
  | nil => simp
  | cons b bs ih => simp [List.eraseIdx, ih]

theorem set_append_cons {α : Type} (l1 : List α) (a b : α) (l2 : List α) :
    (l1 ++ a :: l2).set l1.length b = l1 ++ b :: l2 := by
  induction l1 with
  | nil => simp
  | cons c cs ih => simp [List.set, ih]

/-! ## Helper lemmas: code units, lowercasing, trimming -/

theorem isJsWs_eq_true_iff {n : Nat} :
    isJsWs n = true ↔ (n = 32 ∨ n = 9 ∨ n = 10 ∨ n = 11 ∨ n = 12 ∨ n = 13) := by
  simp [isJsWs]
  tauto

theorem isJsWs_lowerUnit (n : Nat) : isJsWs (lowerUnit n) = isJsWs n := by
  unfold lowerUnit
  split
  · rename_i h
    have h1 : isJsWs (n + 32) = false := by
      rw [← Bool.not_eq_true, isJsWs_eq_true_iff]
      omega
    have h2 : isJsWs n = false := by
      rw [← Bool.not_eq_true, isJsWs_eq_true_iff]
      omega
    rw [h1, h2]
  · rfl

theorem lowerUnit_eq_64_iff {n : Nat} : lowerUnit n = 64 ↔ n = 64 := by
  unfold lowerUnit
  split <;> omega

theorem lowerUnit_eq_46_iff {n : Nat} : lowerUnit n = 46 ↔ n = 46 := by
  unfold lowerUnit
  split <;> omega

theorem lowerUnit_lowerUnit (n : Nat) : lowerUnit (lowerUnit n) = lowerUnit n := by
  unfold lowerUnit
  split
  · split <;> omega
  · rfl

theorem jsToLower_jsToLower (s : JSString) : jsToLower (jsToLower s) = jsToLower s := by
  simp [jsToLower, lowerUnit_lowerUnit]

theorem emailUnitOk_lowerUnit (n : Nat) : emailUnitOk (lowerUnit n) = emailUnitOk n := by
  unfold emailUnitOk
  rw [isJsWs_lowerUnit]
  have : (lowerUnit n != 64) = (n != 64) := by
    simp only [bne]
    cases h : n == 64 with
    | true =>
      have : n = 64 := by simpa using h
      subst this
      simp [lowerUnit]
    | false =>
      have hne : ¬ n = 64 := by simpa using h
      have : ¬ lowerUnit n = 64 := fun hc => hne (lowerUnit_eq_64_iff.mp hc)
      simp [this]
  rw [this]

theorem dropWhile_eq_self_of_all {α : Type} {p : α → Bool} {l : List α}
    (h : ∀ a ∈ l, p a = false) : l.dropWhile p = l := by
  cases l with
  | nil => rfl
  | cons a as =>
    rw [List.dropWhile_cons, if_neg]
    rw [h a (List.mem_cons_self _ _)]
    exact Bool.false_ne_true

theorem jsTrim_eq_self {l : JSString} (h : ∀ a ∈ l, isJsWs a = false) :
    jsTrim l = l := by
  unfold jsTrim
  rw [dropWhile_eq_self_of_all h,
    dropWhile_eq_self_of_all fun a ha => h a (List.mem_reverse.mp ha),
    List.reverse_reverse]

/-! ## Helper lemmas: the email regex -/

theorem splitAtFirst_eq_some {c : Nat} {l x y : JSString}
    (h : splitAtFirst c l = some (x, y)) :
    l = x ++ c :: y ∧ ∀ a ∈ x, a ≠ c := by
  induction l generalizing x y with
  | nil => simp [splitAtFirst] at h
  | cons a as ih =>
    by_cases hac : a = c
    · subst hac
      simp [splitAtFirst] at h
      rcases h with ⟨rfl, rfl⟩
      simp
    · simp only [splitAtFirst, if_neg hac] at h
      cases heq : splitAtFirst c as with
      | none => rw [heq] at h; simp at h
      | some q =>
        rw [heq] at h
        simp only [Option.map_some', Option.some.injEq] at h
        rcases q with ⟨x', y'⟩
        have hx : x = a :: x' := by
          have := congrArg Prod.fst h
          simpa using this.symm
        have hy : y = y' := by
          have := congrArg Prod.snd h
          simpa using this.symm
        subst hx hy
        rcases ih heq with ⟨rfl, hall⟩
        refine ⟨by simp, ?_⟩
        intro b hb
        rcases List.mem_cons.mp hb with rfl | hb
        · exact hac
        · exact hall b hb

theorem splitAtFirst_of_not_mem {c : Nat} {l : JSString}
    (h : ∀ a ∈ l, a ≠ c) : splitAtFirst c l = none := by
  induction l with
  | nil => rfl
  | cons a as ih =>
    simp only [splitAtFirst, if_neg (h a (List.mem_cons_self _ _))]
    rw [ih fun b hb => h b (List.mem_cons_of_mem _ hb)]
    rfl

theorem splitAtFirst_map_lower {l : JSString} :
    splitAtFirst 64 (l.map lowerUnit) =
      (splitAtFirst 64 l).map (fun q => (q.1.map lowerUnit, q.2.map lowerUnit)) := by
  induction l with
  | nil => simp [splitAtFirst]
  | cons a as ih =>
    by_cases hac : a = 64
    · subst hac
      simp [splitAtFirst, lowerUnit]
    · have hlc : ¬ lowerUnit a = 64 := fun hc => hac (lowerUnit_eq_64_iff.mp hc)
      simp only [List.map_cons, splitAtFirst, if_neg hac, if_neg hlc, ih]
      cases splitAtFirst 64 as <;> simp

theorem dotWithSuffix_map_lower (l : JSString) :
    dotWithSuffix (l.map lowerUnit) = dotWithSuffix l := by
  induction l with
  | nil => rfl
  | cons a as ih =>
    cases as with
    | nil => rfl
    | cons b bs =>
      simp only [List.map_cons, dotWithSuffix] at *
      rw [ih]
      have : (lowerUnit a == 46) = (a == 46) := by
        cases h : a == 46 with
        | true =>
          have : a = 46 := by simpa using h
          subst this
          simp [lowerUnit]
        | false =>
          have hne : ¬ a = 46 := by simpa using h
          have : ¬ lowerUnit a = 46 := fun hc => hne (lowerUnit_eq_46_iff.mp hc)
          simp [this]
      rw [this]

theorem emailSegOk_map_lower (l : JSString) :
    emailSegOk (l.map lowerUnit) = emailSegOk l := by
  unfold emailSegOk
  induction l with
  | nil => rfl
  | cons a as ih => simp only [List.map_cons, List.all_cons, emailUnitOk_lowerUnit, ih]

theorem emailTailOk_map_lower (l : JSString) :
    emailTailOk (l.map lowerUnit) = emailTailOk l := by
  unfold emailTailOk
  rw [emailSegOk_map_lower]
  cases l with
  | nil => rfl
  | cons a as => simp [dotWithSuffix_map_lower]

theorem emailRegexTest_lower (l : JSString) :
    emailRegexTest (jsToLower l) = emailRegexTest l := by
  unfold emailRegexTest jsToLower
  rw [splitAtFirst_map_lower]
  cases h : splitAtFirst 64 l with
  | none => rfl
  | some q =>
    rcases q with ⟨x, y⟩
    simp only [Option.map_some']
    rw [emailSegOk_map_lower, emailTailOk_map_lower]
    cases x <;> simp

theorem emailRegexTest_no_ws {l : JSString} (h : emailRegexTest l = true) :
    ∀ a ∈ l, isJsWs a = false := by
  unfold emailRegexTest at h
  cases heq : splitAtFirst 64 l with
  | none => rw [heq] at h; simp at h
  | some q =>
    rcases q with ⟨x, y⟩
    rw [heq] at h
    simp only [Bool.and_eq_true, Bool.not_eq_true'] at h
    rcases h with ⟨⟨hne, hx⟩, hy⟩
    have hysegs : emailSegOk y = true := by
      unfold emailTailOk at hy
      rw [Bool.and_eq_true] at hy
      exact hy.1
    rcases splitAtFirst_eq_some heq with ⟨rfl, _⟩
    intro a ha
    rcases List.mem_append.mp ha with hax | hay
    · have hall := List.all_eq_true.mp hx a hax
      unfold emailUnitOk at hall
      rw [Bool.and_eq_true] at hall
      simpa using hall.1
    · rcases List.mem_cons.mp hay with rfl | hay
      · rfl
      · have hall := List.all_eq_true.mp hysegs a hay
        unfold emailUnitOk at hall
        rw [Bool.and_eq_true] at hall
        simpa using hall.1

theorem emailRegexTest_ne_nil {l : JSString} (h : emailRegexTest l = true) :
    l ≠ [] := by
  unfold emailRegexTest at h
  cases heq : splitAtFirst 64 l with
  | none => rw [heq] at h; simp at h
  | some q =>
    rcases q with ⟨x, y⟩
    rcases splitAtFirst_eq_some heq with ⟨rfl, _⟩
    simp

theorem jsTrim_of_emailRegexTest {l : JSString} (h : emailRegexTest l = true) :
    jsTrim l = l :=
  jsTrim_eq_self (emailRegexTest_no_ws h)

theorem emailRegexTest_stored {l : JSString} (h : emailRegexTest l = true) :
    emailRegexTest (jsToLower (jsTrim l)) = true := by
  rw [jsTrim_of_emailRegexTest h, emailRegexTest_lower]
  exact h

theorem stored_email_ne_nil {l : JSString} (h : emailRegexTest l = true) :
    jsToLower (jsTrim l) ≠ [] := by
  rw [jsTrim_of_emailRegexTest h]
  intro hc
  have : l = [] := by
    have := congrArg List.length hc
    simpa [jsToLower] using this
  exact emailRegexTest_ne_nil h this

/-! ## Helper lemmas: decimal rendering of ids -/

/-- Decode a least-significant-first decimal digit list. -/
def decodeDec (l : List Nat) : Nat := l.foldr (fun d acc => acc * 10 + d) 0

theorem decodeDec_decDigitsAux : ∀ fuel n, n ≤ fuel →
    decodeDec (decDigitsAux fuel n) = n := by
  intro fuel
  induction fuel with
  | zero =>
    intro n hn
    interval_cases n
    rfl
  | succ f ih =>
    intro n hn
    cases n with
    | zero => rfl
    | succ m =>
      have hdiv : (m + 1) / 10 ≤ f := by
        have := Nat.div_lt_self (Nat.succ_pos m) (by omega : 1 < 10)
        omega
      simp only [decDigitsAux, decodeDec, List.foldr_cons]
      have hrec := ih ((m + 1) / 10) hdiv
      unfold decodeDec at hrec
      rw [hrec]
      omega

theorem natToUnits_inj {m n : Nat} (hm : 0 < m) (hn : 0 < n)
    (h : natToUnits m = natToUnits n) : m = n := by
  unfold natToUnits at h
  rw [if_neg (by omega), if_neg (by omega)] at h
  have hrev := List.reverse_injective h
  have hadd : Function.Injective (fun d : Nat => 48 + d) := fun a b hab => by
    simpa using hab
  have hdig : decDigitsAux m m = decDigitsAux n n :=
    List.map_injective_iff.mpr hadd hrev
  have := congrArg decodeDec hdig
  rwa [decodeDec_decDigitsAux m m le_rfl, decodeDec_decDigitsAux n n le_rfl] at this

/-! ## Branch characterizations of the ephemeral operations -/

theorem createUser_missing {urlOk : JSString → Bool} {st : StoreState} {p : Payload}
    (h : ¬ (truthy p.name = true ∧ truthy p.email = true)) :
    createUser urlOk st p = (.error .missingFields, st) := by
  unfold createUser
  rw [if_pos h]

theorem createUser_invalidEmail {urlOk : JSString → Bool} {st : StoreState} {p : Payload}
    (hname : truthy p.name = true) (hemail : truthy p.email = true)
    (hre : emailRegexTest (p.email.getD []) = false) :
    createUser urlOk st p = (.error .invalidEmail, st) := by
  unfold createUser
  rw [if_neg (not_not_intro (And.intro hname hemail)), if_pos (by simp [hre])]

theorem createUser_duplicate {urlOk : JSString → Bool} {st : StoreState} {p : Payload}
    (hname : truthy p.name = true) (hemail : truthy p.email = true)
    (hre : emailRegexTest (p.email.getD []) = true)
    (hdup : (jsFind (createDupPred (p.email.getD [])) st.users).isSome = true) :
    createUser urlOk st p = (.error .duplicateEmail, st) := by
  unfold createUser
  rw [if_neg (not_not_intro (And.intro hname hemail)), if_neg (by simp [hre]),
    if_pos hdup]

theorem createUser_success {urlOk : JSString → Bool} {st : StoreState} {p : Payload}
    (hname : truthy p.name = true) (hemail : truthy p.email = true)
    (hre : emailRegexTest (p.email.getD []) = true)
    (hdup : jsFind (createDupPred (p.email.getD [])) st.users = none)
    (himg : truthy p.image = true → jsTrim (p.image.getD []) ≠ [] →
      urlOk (jsTrim (p.image.getD [])) = true) :
    createUser urlOk st p =
      (.ok (newUserOf st p),
        { users := st.users ++ [newUserOf st p], counter := st.counter + 1 }) := by
  unfold createUser
  rw [if_neg (not_not_intro (And.intro hname hemail)), if_neg (by simp [hre]),
    if_neg (by simp [hdup]), if_neg]
  rintro ⟨h1, h2, h3⟩
  exact h3 (himg h1 h2)

theorem createUser_cases (urlOk : JSString → Bool) (st : StoreState) (p : Payload) :
    (createUser urlOk st p).2 = st ∨
      createUser urlOk st p =
        (.ok (newUserOf st p),
          { users := st.users ++ [newUserOf st p], counter := st.counter + 1 }) := by
  unfold createUser
  split
  · exact Or.inl rfl
  · split
    · exact Or.inl rfl
    · split
      · exact Or.inl rfl
      · split
        · exact Or.inl rfl
        · exact Or.inr rfl

theorem createUser_error_state {urlOk : JSString → Bool} {st : StoreState} {p : Payload}
    {e : CreateErr} (h : (createUser urlOk st p).1 = .error e) :
    (createUser urlOk st p).2 = st := by
  rcases createUser_cases urlOk st p with h2 | h2
  · exact h2
  · rw [h2] at h
    simp at h

theorem updateUser_notFound {urlOk : JSString → Bool} {st : StoreState}
    {userId : JSString} {p : Payload}
    (h : jsFindIndex (idPred userId) st.users = none) :
    updateUser urlOk st userId p = (.error .notFound, st) := by
  simp only [updateUser, h]

theorem updateUser_missing {urlOk : JSString → Bool} {st : StoreState}
    {userId : JSString} {p : Payload} {idx : Nat}
    (hfi : jsFindIndex (idPred userId) st.users = some idx)
    (h : ¬ (truthy p.name = true ∧ truthy p.email = true)) :
    updateUser urlOk st userId p = (.error .missingFields, st) := by
  simp only [updateUser, hfi]
  exact if_pos h

theorem updateUser_invalidEmail {urlOk : JSString → Bool} {st : StoreState}
    {userId : JSString} {p : Payload} {idx : Nat}
    (hfi : jsFindIndex (idPred userId) st.users = some idx)
    (hname : truthy p.name = true) (hemail : truthy p.email = true)
    (hre : emailRegexTest (p.email.getD []) = false) :
    updateUser urlOk st userId p = (.error .invalidEmail, st) := by
  simp only [updateUser, hfi]
  rw [if_neg (not_not_intro (And.intro hname hemail)), if_pos (by simp [hre])]

theorem updateUser_duplicate {urlOk : JSString → Bool} {st : StoreState}
    {userId : JSString} {p : Payload} {idx : Nat}
    (hfi : jsFindIndex (idPred userId) st.users = some idx)
    (hname : truthy p.name = true) (hemail : truthy p.email = true)
    (hre : emailRegexTest (p.email.getD []) = true)
    (hdup : (jsFind (updateDupPred (p.email.getD []) userId) st.users).isSome = true) :
    updateUser urlOk st userId p = (.error .duplicateEmail, st) := by
  simp only [updateUser, hfi]
  rw [if_neg (not_not_intro (And.intro hname hemail)), if_neg (by simp [hre]),
    if_pos hdup]

theorem updateUser_success {urlOk : JSString → Bool} {l1 l2 : List UserRec}
    {old : UserRec} {counter : Nat} {userId : JSString} {p : Payload}
    (hfi : jsFindIndex (idPred userId) (l1 ++ old :: l2) = some l1.length)
    (hname : truthy p.name = true) (hemail : truthy p.email = true)
    (hre : emailRegexTest (p.email.getD []) = true)
    (hdup : jsFind (updateDupPred (p.email.getD []) userId) (l1 ++ old :: l2) = none)
    (himg : truthy p.image = true → jsTrim (p.image.getD []) ≠ [] →
      urlOk (jsTrim (p.image.getD [])) = true) :
    updateUser urlOk ⟨l1 ++ old :: l2, counter⟩ userId p =
      (.ok (updatedOf old p), ⟨l1 ++ updatedOf old p :: l2, counter⟩) := by
  simp only [updateUser, hfi]
  rw [if_neg (not_not_intro (And.intro hname hemail)), if_neg (by simp [hre]),
    if_neg (by simp [hdup]), if_neg]
  · have hget : (l1 ++ old :: l2)[l1.length]? = some old := getAt_append_cons l1 old l2
    simp only [hget, set_append_cons]
  · rintro ⟨h1, h2, h3⟩
    exact h3 (himg h1 h2)

theorem updateUser_cases (urlOk : JSString → Bool) (st : StoreState)
    (userId : JSString) (p : Payload) :
    (updateUser urlOk st userId p).2 = st ∨
      ∃ u, (updateUser urlOk st userId p).1 = .ok u := by
  unfold updateUser
  split
  · exact Or.inl rfl
  · split
    · exact Or.inl rfl
    · split
      · exact Or.inl rfl
      · split
        · exact Or.inl rfl
        · split
          · exact Or.inl rfl
          · split
            · exact Or.inl rfl
            · exact Or.inr ⟨_, rfl⟩

theorem updateUser_error_state {urlOk : JSString → Bool} {st : StoreState}
    {userId : JSString} {p : Payload} {e : UpdateErr}
    (h : (updateUser urlOk st userId p).1 = .error e) :
    (updateUser urlOk st userId p).2 = st := by
  rcases updateUser_cases urlOk st userId p with h2 | ⟨u, h2⟩
  · exact h2
  · rw [h2] at h
    simp at h

theorem deleteUser_notFound {st : StoreState} {userId : JSString}
    (h : jsFindIndex (idPred userId) st.users = none) :
    deleteUser st userId = (.error (), st) := by
  simp only [deleteUser, h]

theorem deleteUser_success {l1 l2 : List UserRec} {u : UserRec} {counter : Nat}
    {userId : JSString}
    (hfi : jsFindIndex (idPred userId) (l1 ++ u :: l2) = some l1.length) :
    deleteUser ⟨l1 ++ u :: l2, counter⟩ userId = (.ok u, ⟨l1 ++ l2, counter⟩) := by
  simp only [deleteUser, hfi, getAt_append_cons, eraseIdx_append_cons]

theorem deleteUser_cases (st : StoreState) (userId : JSString) :
    (deleteUser st userId).2 = st ∨ ∃ u, (deleteUser st userId).1 = .ok u := by
  unfold deleteUser
  split
  · exact Or.inl rfl
  · split
    · exact Or.inl rfl
    · exact Or.inr ⟨_, rfl⟩

theorem deleteUser_error_state {st : StoreState} {userId : JSString}
    (h : (deleteUser st userId).1 = .error ()) :
    (deleteUser st userId).2 = st := by
  rcases deleteUser_cases st userId with h2 | ⟨u, h2⟩
  · exact h2
  · rw [h2] at h
    simp at h

/-! ## Stronger case splits carrying the validation facts -/

theorem createUser_split (urlOk : JSString → Bool) (st : StoreState) (p : Payload) :
    ((∃ e, (createUser urlOk st p).1 = .error e) ∧ (createUser urlOk st p).2 = st) ∨
      (truthy p.name = true ∧ truthy p.email = true ∧
        emailRegexTest (p.email.getD []) = true ∧
        jsFind (createDupPred (p.email.getD [])) st.users = none ∧
        createUser urlOk st p =
          (.ok (newUserOf st p),
            { users := st.users ++ [newUserOf st p], counter := st.counter + 1 })) := by
  unfold createUser
  split
  · exact Or.inl ⟨⟨.missingFields, rfl⟩, rfl⟩
  · rename_i h1
    split
    · exact Or.inl ⟨⟨.invalidEmail, rfl⟩, rfl⟩
    · rename_i h2
      split
      · exact Or.inl ⟨⟨.duplicateEmail, rfl⟩, rfl⟩
      · rename_i h3
        split
        · exact Or.inl ⟨⟨.invalidImageUrl, rfl⟩, rfl⟩
        · refine Or.inr ⟨(not_not.mp h1).1, (not_not.mp h1).2, not_not.mp h2, ?_, rfl⟩
          rw [← Option.not_isSome_iff_eq_none]
          simpa using h3

theorem createUser_ok {urlOk : JSString → Bool} {st : StoreState} {p : Payload}
    {nu : UserRec} (h : (createUser urlOk st p).1 = .ok nu) :
    nu = newUserOf st p ∧
      (createUser urlOk st p).2 =
        { users := st.users ++ [newUserOf st p], counter := st.counter + 1 } := by
  rcases createUser_split urlOk st p with ⟨⟨e, he⟩, _⟩ | ⟨_, _, _, _, hc⟩
  · rw [h] at he
    exact absurd he (by simp)
  · rw [hc] at h ⊢
    exact ⟨by simpa using h.symm, rfl⟩

theorem updateUser_split (urlOk : JSString → Bool) (st : StoreState)
    (userId : JSString) (p : Payload) :
    ((∃ e, (updateUser urlOk st userId p).1 = .error e) ∧
        (updateUser urlOk st userId p).2 = st) ∨
      ∃ idx old,
        jsFindIndex (idPred userId) st.users = some idx ∧
        st.users[idx]? = some old ∧
        truthy p.name = true ∧ truthy p.email = true ∧
        emailRegexTest (p.email.getD []) = true ∧
        jsFind (updateDupPred (p.email.getD []) userId) st.users = none ∧
        updateUser urlOk st userId p =
          (.ok (updatedOf old p), ⟨st.users.set idx (updatedOf old p), st.counter⟩) := by
  unfold updateUser
  split
  · exact Or.inl ⟨⟨.notFound, rfl⟩, rfl⟩
  · rename_i idx hfi
    split
    · exact Or.inl ⟨⟨.missingFields, rfl⟩, rfl⟩
    · rename_i h1
      split
      · exact Or.inl ⟨⟨.invalidEmail, rfl⟩, rfl⟩
      · rename_i h2
        split
        · exact Or.inl ⟨⟨.duplicateEmail, rfl⟩, rfl⟩
        · rename_i h3
          split
          · exact Or.inl ⟨⟨.invalidImageUrl, rfl⟩, rfl⟩
          · split
            · exact Or.inl ⟨⟨.notFound, rfl⟩, rfl⟩
            · rename_i old hget
              refine Or.inr ⟨idx, old, hfi, hget, (not_not.mp h1).1, (not_not.mp h1).2,
                not_not.mp h2, ?_, rfl⟩
              rw [← Option.not_isSome_iff_eq_none]
              simpa using h3

theorem deleteUser_split (st : StoreState) (userId : JSString) :
    ((deleteUser st userId).1 = .error () ∧ (deleteUser st userId).2 = st) ∨
      ∃ idx u,
        jsFindIndex (idPred userId) st.users = some idx ∧
        st.users[idx]? = some u ∧
        deleteUser st userId = (.ok u, ⟨st.users.eraseIdx idx, st.counter⟩) := by
  unfold deleteUser
  split
  · exact Or.inl ⟨rfl, rfl⟩
  · rename_i idx hfi
    split
    · exact Or.inl ⟨rfl, rfl⟩
    · rename_i u hget
      exact Or.inr ⟨idx, u, hfi, hget, rfl⟩

/-! ## Reachability and the store invariant -/

/-- One request against the ephemeral store: any `/create`, `/update/:id` or
`/delete/:id` call, with arbitrary payload, id and URL-parser behavior. -/
inductive Step : StoreState → StoreState → Prop where
  | create (urlOk : JSString → Bool) (p : Payload) (st : StoreState) :
      Step st (createUser urlOk st p).2
  | update (urlOk : JSString → Bool) (userId : JSString) (p : Payload) (st : StoreState) :
      Step st (updateUser urlOk st userId p).2
  | delete (userId : JSString) (st : StoreState) :
      Step st (deleteUser st userId).2

/-- Multi-step reachability between states. -/
abbrev ReachableFrom : StoreState → StoreState → Prop := Relation.ReflTransGen Step

/-- States reachable from the seeded initial state. -/
abbrev Reachable (st : StoreState) : Prop := ReachableFrom initialState st

/-- The ephemeral store invariant: a positive counter; every id the decimal
rendering of a positive number below the counter; pairwise-distinct ids;
every stored email matching the regex; pairwise-distinct lowercased emails. -/
structure Inv (st : StoreState) : Prop where
  counter_pos : 0 < st.counter
  ids : ∀ u ∈ st.users, ∃ n, 0 < n ∧ n < st.counter ∧ u._id = natToUnits n
  idsNodup : (st.users.map UserRec._id).Nodup
  emails : ∀ u ∈ st.users, emailRegexTest u.email = true
  emailsNodup : (st.users.map fun u => jsToLower u.email).Nodup

theorem inv_init : Inv initialState := by
  refine ⟨by norm_num [initialState], ?_, by decide, ?_, by decide⟩
  · intro u hu
    have : u = initialUsers[0] ∨ u = initialUsers[1] := by
      simpa [initialState, initialUsers] using hu
    rcases this with rfl | rfl
    · exact ⟨1, by norm_num, by norm_num [initialState], by decide⟩
    · exact ⟨2, by norm_num, by norm_num [initialState], by decide⟩
  · intro u hu
    have : u = initialUsers[0] ∨ u = initialUsers[1] := by
      simpa [initialState, initialUsers] using hu
    rcases this with rfl | rfl <;> decide

theorem inv_create {st : StoreState} (h : Inv st) (urlOk : JSString → Bool)
    (p : Payload) : Inv (createUser urlOk st p).2 := by
  rcases createUser_split urlOk st p with ⟨_, hst⟩ | ⟨_, _, hre, hdup, hc⟩
  · rw [hst]
    exact h
  · rw [hc]
    show Inv { users := st.users ++ [newUserOf st p], counter := st.counter + 1 }
    have hstored : jsToLower (newUserOf st p).email = jsToLower (jsTrim (p.email.getD [])) := by
      simp [newUserOf, jsToLower_jsToLower]
    refine ⟨by exact Nat.succ_pos _, ?_, ?_, ?_, ?_⟩
    · intro u hu
      rcases List.mem_append.mp hu with hu | hu
      · rcases h.ids u hu with ⟨n, hn1, hn2, hn3⟩
        exact ⟨n, hn1, by exact Nat.lt_succ_of_lt hn2, hn3⟩
      · rcases List.mem_singleton.mp hu with rfl
        exact ⟨st.counter, h.counter_pos, by exact Nat.lt_succ_self _, rfl⟩
    · rw [List.map_append, List.nodup_append]
      refine ⟨h.idsNodup, by simp, ?_⟩
      intro x hx hy
      simp only [newUserOf, List.map_cons, List.map_nil, List.mem_singleton] at hy
      rcases List.mem_map.mp hx with ⟨u, hu, rfl⟩
      rcases h.ids u hu with ⟨n, hn1, hn2, hn3⟩
      have hx2 : natToUnits n = natToUnits st.counter := by rw [← hn3, hy]
      have := natToUnits_inj hn1 h.counter_pos hx2
      omega
    · intro u hu
      rcases List.mem_append.mp hu with hu | hu
      · exact h.emails u hu
      · rcases List.mem_singleton.mp hu with rfl
        exact emailRegexTest_stored hre
    · rw [List.map_append, List.nodup_append]
      refine ⟨h.emailsNodup, by simp, ?_⟩
      intro x hx hy
      simp only [List.map_cons, List.map_nil, List.mem_singleton] at hy
      rcases List.mem_map.mp hx with ⟨u, hu, rfl⟩
      have := jsFind_eq_none.mp hdup u hu
      unfold createDupPred at this
      simp only [decide_eq_false_iff_not] at this
      exact this (by rw [hy, hstored])

theorem map_nodup_middle {α β : Type} (f : α → β) (l1 l2 : List α) (a : α) :
    ((l1 ++ a :: l2).map f).Nodup ↔
      f a ∉ ((l1 ++ l2).map f) ∧ ((l1 ++ l2).map f).Nodup := by
  rw [List.map_append, List.map_cons, List.nodup_middle, List.nodup_cons, List.map_append]

theorem inv_update {st : StoreState} (h : Inv st) (urlOk : JSString → Bool)
    (userId : JSString) (p : Payload) : Inv (updateUser urlOk st userId p).2 := by
  rcases updateUser_split urlOk st userId p with
    ⟨_, hst⟩ | ⟨idx, old, hfi, hget, _, _, hre, hdup, hpair⟩
  · rw [hst]
    exact h
  · have hst2 : (updateUser urlOk st userId p).2 =
        ⟨st.users.set idx (updatedOf old p), st.counter⟩ := by rw [hpair]
    rcases jsFindIndex_spec hfi with ⟨a, l1, l2, hl, hlen, hpa, hfirst⟩
    have hget2 : st.users[idx]? = some a := by
      rw [hl, ← hlen]
      exact getAt_append_cons l1 a l2
    have haold : a = old := Option.some.inj (hget2.symm.trans hget)
    subst haold
    have hsetstate : (updateUser urlOk st userId p).2 =
        ⟨l1 ++ updatedOf a p :: l2, st.counter⟩ := by
      rw [hst2, hl, ← hlen, set_append_cons]
    rw [hsetstate]
    have hmema : a ∈ st.users := by
      rw [hl]
      exact List.mem_append_right _ (List.mem_cons_self _ _)
    have hida : a._id = userId := by
      have := hpa
      unfold idPred at this
      simpa using this
    have hidsl12 : a._id ∉ ((l1 ++ l2).map UserRec._id) := by
      have horigids : ((l1 ++ a :: l2).map UserRec._id).Nodup := by
        rw [← hl]
        exact h.idsNodup
      exact ((map_nodup_middle _ _ _ _).mp horigids).1
    refine ⟨h.counter_pos, ?_, ?_, ?_, ?_⟩
    · intro u hu
      simp only [List.mem_append, List.mem_cons] at hu
      rcases hu with hu | rfl | hu
      · exact h.ids u (by rw [hl]; exact List.mem_append_left _ hu)
      · rcases h.ids a hmema with ⟨n, h1, h2, h3⟩
        exact ⟨n, h1, h2, h3⟩
      · exact h.ids u
          (by rw [hl]; exact List.mem_append_right _ (List.mem_cons_of_mem _ hu))
    · have heq : (l1 ++ updatedOf a p :: l2).map UserRec._id =
          (l1 ++ a :: l2).map UserRec._id := by
        simp [List.map_append, updatedOf]
      rw [heq, ← hl]
      exact h.idsNodup
    · intro u hu
      simp only [List.mem_append, List.mem_cons] at hu
      rcases hu with hu | rfl | hu
      · exact h.emails u (by rw [hl]; exact List.mem_append_left _ hu)
      · exact emailRegexTest_stored hre
      · exact h.emails u
          (by rw [hl]; exact List.mem_append_right _ (List.mem_cons_of_mem _ hu))
    · have horig : ((l1 ++ a :: l2).map fun u => jsToLower u.email).Nodup := by
        rw [← hl]
        exact h.emailsNodup
      rw [map_nodup_middle] at horig ⊢
      refine ⟨?_, horig.2⟩
      intro hmem
      rcases List.mem_map.mp hmem with ⟨v, hv, hveq⟩
      have hlowupd : jsToLower (updatedOf a p).email =
          jsToLower (jsTrim (p.email.getD [])) := by
        simp [updatedOf, jsToLower_jsToLower]
      have hvst : v ∈ st.users := by
        rw [hl]
        rcases List.mem_append.mp hv with hv | hv
        · exact List.mem_append_left _ hv
        · exact List.mem_append_right _ (List.mem_cons_of_mem _ hv)
      have hdv := jsFind_eq_none.mp hdup v hvst
      unfold updateDupPred at hdv
      rw [Bool.and_eq_false_iff] at hdv
      simp only [decide_eq_false_iff_not, not_not] at hdv
      have hvlow : jsToLower v.email = jsToLower (jsTrim (p.email.getD [])) := by
        rw [hveq, hlowupd]
      rcases hdv with hdv | hdv
      · exact hdv hvlow
      · rw [← hida] at hdv
        exact hidsl12 (hdv ▸ List.mem_map.mpr ⟨v, hv, rfl⟩)

theorem inv_delete {st : StoreState} (h : Inv st) (userId : JSString) :
    Inv (deleteUser st userId).2 := by
  rcases deleteUser_split st userId with ⟨_, hst⟩ | ⟨idx, u, hfi, hget, hpair⟩
  · rw [hst]
    exact h
  · have hst2 : (deleteUser st userId).2 = ⟨st.users.eraseIdx idx, st.counter⟩ := by
      rw [hpair]
    rcases jsFindIndex_spec hfi with ⟨a, l1, l2, hl, hlen, hpa, hfirst⟩
    have hsetstate : (deleteUser st userId).2 = ⟨l1 ++ l2, st.counter⟩ := by
      rw [hst2, hl, ← hlen, eraseIdx_append_cons]
    rw [hsetstate]
    have hsub : ∀ v ∈ l1 ++ l2, v ∈ st.users := by
      intro v hv
      rw [hl]
      rcases List.mem_append.mp hv with hv | hv
      · exact List.mem_append_left _ hv
      · exact List.mem_append_right _ (List.mem_cons_of_mem _ hv)
    refine ⟨h.counter_pos, ?_, ?_, ?_, ?_⟩
    · intro v hv
      exact h.ids v (hsub v hv)
    · have horig : ((l1 ++ a :: l2).map UserRec._id).Nodup := by
        rw [← hl]
        exact h.idsNodup
      exact ((map_nodup_middle _ _ _ _).mp horig).2
    · intro v hv
      exact h.emails v (hsub v hv)
    · have horig : ((l1 ++ a :: l2).map fun v => jsToLower v.email).Nodup := by
        rw [← hl]
        exact h.emailsNodup
      exact ((map_nodup_middle _ _ _ _).mp horig).2

theorem inv_step {st st' : StoreState} (h : Inv st) (hs : Step st st') : Inv st' := by
  cases hs with
  | create urlOk p st => exact inv_create h urlOk p
  | update urlOk userId p st => exact inv_update h urlOk userId p
  | delete userId st => exact inv_delete h userId

theorem inv_reachableFrom {st st' : StoreState} (h : Inv st)
    (hr : ReachableFrom st st') : Inv st' := by
  induction hr with
  | refl => exact h
  | tail _ hstep ih => exact inv_step ih hstep

theorem inv_reachable {st : StoreState} (h : Reachable st) : Inv st :=
  inv_reachableFrom inv_init h

theorem step_counter_le {st st' : StoreState} (hs : Step st st') :
    st.counter ≤ st'.counter := by
  cases hs with
  | create urlOk p st =>
    rcases createUser_split urlOk st p with ⟨_, hst⟩ | ⟨_, _, _, _, hc⟩
    · rw [hst]
    · exact hc ▸ Nat.le_succ _
  | update urlOk userId p st =>
    rcases updateUser_split urlOk st userId p with ⟨_, hst⟩ | ⟨_, _, _, _, _, _, _, _, hpair⟩
    · rw [hst]
    · rw [hpair]
  | delete userId st =>
    rcases deleteUser_split st userId with ⟨_, hst⟩ | ⟨_, _, _, _, hpair⟩
    · rw [hst]
    · rw [hpair]

theorem reachableFrom_counter_le {st st' : StoreState}
    (hr : ReachableFrom st st') : st.counter ≤ st'.counter := by
  induction hr with
  | refl => exact le_rfl
  | tail _ hstep ih => exact le_trans ih (step_counter_le hstep)

/-! ## Further utility lemmas for the claims -/

theorem truthy_some_of_ne_nil {l : JSString} (h : l ≠ []) :
    truthy (some l) = true := by
  cases l with
  | nil => exact absurd rfl h
  | cons a as => rfl

theorem jsFindIndex_mem_some {α : Type} {p : α → Bool} {l : List α} {u : α}
    (hu : u ∈ l) (hp : p u = true) : ∃ i, jsFindIndex p l = some i := by
  cases h : jsFindIndex p l with
  | none =>
    rw [jsFindIndex_eq_none.mp h u hu] at hp
    exact absurd hp (by simp)
  | some i => exact ⟨i, rfl⟩

/-- After the duplicate check of `/create` passes, only the image-URL check
separates the request from success. -/
theorem createUser_past_dup {urlOk : JSString → Bool} {st : StoreState} {p : Payload}
    (hname : truthy p.name = true) (hemail : truthy p.email = true)
    (hre : emailRegexTest (p.email.getD []) = true)
    (hdup : jsFind (createDupPred (p.email.getD [])) st.users = none) :
    createUser urlOk st p =
      if truthy p.image = true ∧ jsTrim (p.image.getD []) ≠ [] ∧
          ¬ urlOk (jsTrim (p.image.getD [])) = true then
        (.error .invalidImageUrl, st)
      else
        (.ok (newUserOf st p),
          { users := st.users ++ [newUserOf st p], counter := st.counter + 1 }) := by
  unfold createUser
  rw [if_neg (not_not_intro (And.intro hname hemail)), if_neg (by simp [hre]),
    if_neg (by simp [hdup])]

/-- After the duplicate check of `/update/:id` passes, only the image-URL check
separates the request from success. -/
theorem updateUser_past_dup {urlOk : JSString → Bool} {st : StoreState}
    {userId : JSString} {p : Payload} {idx : Nat}
    (hfi : jsFindIndex (idPred userId) st.users = some idx)
    (hname : truthy p.name = true) (hemail : truthy p.email = true)
    (hre : emailRegexTest (p.email.getD []) = true)
    (hdup : jsFind (updateDupPred (p.email.getD []) userId) st.users = none) :
    ∃ old, st.users[idx]? = some old ∧
      updateUser urlOk st userId p =
        (if truthy p.image = true ∧ jsTrim (p.image.getD []) ≠ [] ∧
            ¬ urlOk (jsTrim (p.image.getD [])) = true then
          (.error .invalidImageUrl, st)
        else
          (.ok (updatedOf old p),
            ⟨st.users.set idx (updatedOf old p), st.counter⟩)) := by
  rcases jsFindIndex_spec hfi with ⟨a, l1, l2, hl, hlen, hpa, hfirst⟩
  have hget : st.users[idx]? = some a := by
    rw [hl, ← hlen]
    exact getAt_append_cons l1 a l2
  refine ⟨a, hget, ?_⟩
  simp only [updateUser, hfi]
  rw [if_neg (not_not_intro (And.intro hname hemail)), if_neg (by simp [hre]),
    if_neg (by simp [hdup])]
  by_cases himg : truthy p.image = true ∧ jsTrim (p.image.getD []) ≠ [] ∧
      ¬ urlOk (jsTrim (p.image.getD [])) = true
  · rw [if_pos himg, if_pos himg]
  · rw [if_neg himg, if_neg himg]
    simp only [hget]

/-! ## The claims -/

/-- A concrete URL-parser instance accepting everything; used to instantiate
the `urlOk` parameter on concrete runs. -/
def urlAlwaysOk : JSString → Bool := fun _ => true

/-- C1 (counterexample): a whitespace-only name passes the `!name` check of
`/create` (a non-empty string is truthy), so the payload is not rejected, and
the stored record has `name = ""` after trimming — refuting the claim that
every accepted create stores a non-empty trimmed name. -/
theorem c1_counterexample :
    (createUser urlAlwaysOk initialState
        { name := some (jsStr " "), email := some (jsStr "a@b.c"), image := none }).1 =
      Except.ok { _id := jsStr "3", name := [], email := jsStr "a@b.c", image := [] } ∧
    ∃ u ∈ (createUser urlAlwaysOk initialState
        { name := some (jsStr " "), email := some (jsStr "a@b.c"), image := none }).2.users,
      u.name = [] := by
  decide

/-- C1 (amended): every create and every update either rejects the payload
with `MissingFieldError` (when name or email is absent or the empty string) or
stores a record whose email is non-empty; the stored name is the trimmed
submitted name, which is empty when the submitted name was whitespace-only. -/
theorem c1_amended_no_empty_email :
    ∀ urlOk st userId p,
      (¬ (truthy p.name = true ∧ truthy p.email = true) →
        createUser urlOk st p = (.error .missingFields, st) ∧
        (∀ idx, jsFindIndex (idPred userId) st.users = some idx →
          updateUser urlOk st userId p = (.error .missingFields, st))) ∧
      (∀ nu, (createUser urlOk st p).1 = .ok nu →
        nu.email ≠ [] ∧ nu.name = jsTrim (p.name.getD [])) ∧
      (∀ nu, (updateUser urlOk st userId p).1 = .ok nu →
        nu.email ≠ [] ∧ nu.name = jsTrim (p.name.getD [])) := by
  intro urlOk st userId p
  refine ⟨fun hmf => ⟨createUser_missing hmf, fun idx hfi => updateUser_missing hfi hmf⟩,
    ?_, ?_⟩
  · intro nu h
    rcases createUser_split urlOk st p with ⟨⟨e, he⟩, _⟩ | ⟨_, _, hre, _, hc⟩
    · rw [h] at he
      exact absurd he (by simp)
    · rw [hc] at h
      have hnu : nu = newUserOf st p := by simpa using h.symm
      subst hnu
      exact ⟨stored_email_ne_nil hre, rfl⟩
  · intro nu h
    rcases updateUser_split urlOk st userId p with
      ⟨⟨e, he⟩, _⟩ | ⟨idx, old, _, _, _, _, hre, _, hpair⟩
    · rw [h] at he
      exact absurd he (by simp)
    · rw [hpair] at h
      have hnu : nu = updatedOf old p := by simpa using h.symm
      subst hnu
      exact ⟨stored_email_ne_nil hre, rfl⟩

theorem c1_amended_witness :
    createUser urlAlwaysOk initialState { name := none, email := none, image := none } =
      (.error .missingFields, initialState) ∧
    ({ _id := jsStr "3", name := [], email := jsStr "a@b.c", image := [] } : UserRec).email ≠ [] := by
  constructor
  · exact ((c1_amended_no_empty_email urlAlwaysOk initialState (jsStr "1")
      { name := none, email := none, image := none }).1 (by decide)).1
  · exact ((c1_amended_no_empty_email urlAlwaysOk initialState (jsStr "1")
      { name := some (jsStr " "), email := some (jsStr "a@b.c"), image := none }).2.1
      { _id := jsStr "3", name := [], email := jsStr "a@b.c", image := [] } (by decide)).1

/-- C2 (counterexample): an update whose payload is missing the required name
field, aimed at a nonexistent id, fails with `NotFoundError` — not with the
validation error the claim promises — because the handler checks existence of
the id before validating the payload. -/
theorem c2_counterexample :
    updateUser urlAlwaysOk initialState (jsStr "999")
        { name := none, email := some (jsStr "a@b.c"), image := none } =
      (Except.error UpdateErr.notFound, initialState) ∧
    UpdateErr.notFound ≠ UpdateErr.missingFields := by
  decide

/-- C2 (amended): the `/update/:id` handler checks existence of the target id
first: for a nonexistent id it answers `NotFoundError` whatever the payload;
validation errors are reported only for an existing id; and the store is never
mutated when the handler reports any error. -/
theorem c2_amended_validation_order :
    ∀ urlOk st userId p,
      (jsFindIndex (idPred userId) st.users = none →
        updateUser urlOk st userId p = (.error .notFound, st)) ∧
      (∀ e, (updateUser urlOk st userId p).1 = .error e →
        (updateUser urlOk st userId p).2 = st) ∧
      (∀ idx, jsFindIndex (idPred userId) st.users = some idx →
        ¬ (truthy p.name = true ∧ truthy p.email = true) →
        updateUser urlOk st userId p = (.error .missingFields, st)) :=
  fun urlOk st userId p =>
    ⟨fun h => updateUser_notFound h,
     fun _ h => updateUser_error_state h,
     fun _ hfi hmf => updateUser_missing hfi hmf⟩

theorem c2_amended_witness :
    updateUser urlAlwaysOk initialState (jsStr "999")
        { name := none, email := none, image := none } =
      (.error .notFound, initialState) ∧
    updateUser urlAlwaysOk initialState (jsStr "1")
        { name := none, email := none, image := none } =
      (.error .missingFields, initialState) := by
  constructor
  · exact (c2_amended_validation_order urlAlwaysOk initialState (jsStr "999")
      { name := none, email := none, image := none }).1 (by decide)
  · exact (c2_amended_validation_order urlAlwaysOk initialState (jsStr "1")
      { name := none, email := none, image := none }).2.2 0 (by decide) (by decide)

/-- C3 (counterexample): the email regex is tested on the raw submitted
string, and its anchored whitespace-free pattern rejects `" a@b.c "` even
though the trimmed form `"a@b.c"` is well-formed — refuting the claim that
format validity is judged on the trimmed form. -/
theorem c3_counterexample :
    jsTrim (jsStr " a@b.c ") = jsStr "a@b.c" ∧
    emailRegexTest (jsStr "a@b.c") = true ∧
    createUser urlAlwaysOk initialState
        { name := some (jsStr "Ann"), email := some (jsStr " a@b.c "), image := none } =
      (.error .invalidEmail, initialState) := by
  decide

/-- C3 (amended): format validity is judged on the raw submitted email, whose
anchored whitespace-free pattern makes any accepted email trim-invariant; an
email failing the raw test is rejected with `InvalidEmailFormatError`, and on
success the stored email is exactly the lowercased submitted string. -/
theorem c3_amended_email_raw :
    ∀ urlOk st p nu,
      (truthy p.name = true → truthy p.email = true →
        emailRegexTest (p.email.getD []) = false →
        createUser urlOk st p = (.error .invalidEmail, st)) ∧
      ((createUser urlOk st p).1 = .ok nu →
        jsTrim (p.email.getD []) = p.email.getD [] ∧
        nu.email = jsToLower (p.email.getD [])) := by
  intro urlOk st p nu
  refine ⟨fun hn he hre => createUser_invalidEmail hn he hre, ?_⟩
  intro h
  rcases createUser_split urlOk st p with ⟨⟨e, he⟩, _⟩ | ⟨_, _, hre, _, hc⟩
  · rw [h] at he
    exact absurd he (by simp)
  · rw [hc] at h
    have hnu : nu = newUserOf st p := by simpa using h.symm
    subst hnu
    have htrim := jsTrim_of_emailRegexTest hre
    refine ⟨htrim, ?_⟩
    show jsToLower (jsTrim (p.email.getD [])) = jsToLower (p.email.getD [])
    rw [htrim]

theorem c3_amended_witness :
    createUser urlAlwaysOk initialState
        { name := some (jsStr "Bob"), email := some (jsStr "not-an-email"), image := none } =
      (.error .invalidEmail, initialState) ∧
    ({ _id := jsStr "3", name := jsStr "Ann", email := jsStr "ann@ex.com",
        image := [] } : UserRec).email = jsToLower (jsStr "ANN@EX.com") := by
  constructor
  · exact (c3_amended_email_raw urlAlwaysOk initialState
      { name := some (jsStr "Bob"), email := some (jsStr "not-an-email"), image := none }
      { _id := [], name := [], email := [], image := [] }).1 (by decide) (by decide) (by decide)
  · exact ((c3_amended_email_raw urlAlwaysOk initialState
      { name := some (jsStr "Ann"), email := some (jsStr "ANN@EX.com"), image := none }
      { _id := jsStr "3", name := jsStr "Ann", email := jsStr "ann@ex.com",
        image := [] }).2 (by decide)).2

/-- C4 (counterexample): the durable variant's handlers funnel every thrown
store error — duplicate-key and schema-validation included — into one generic
500 response, so those failure kinds are not distinguishable by the caller,
refuting the claimed translation into `DuplicateEmailError` and a structured
validation error. -/
theorem c4_counterexample :
    durableCreate (.error DbErr.duplicateKey) = durableCreate (.error DbErr.other) ∧
    durableUpdate (.error DbErr.schemaValidation) = durableUpdate (.error DbErr.other) ∧
    durableCreate (.error DbErr.duplicateKey) = .respond 500 "Error creating user" :=
  ⟨rfl, rfl, rfl⟩

/-- C4 (amended): the durable variant's create and update handlers map every
store failure — duplicate-key, schema-validation, connection or any other — to
the same generic 500 response; no failure kind is translated into
`DuplicateEmailError` or a structured validation error. -/
theorem c4_amended_uniform_500 :
    ∀ e : DbErr,
      durableCreate (.error e) = .respond 500 "Error creating user" ∧
      durableUpdate (.error e) = .respond 500 "Error updating user" :=
  fun _ => ⟨rfl, rfl⟩

/-- C5: every failing create, update or delete of the ephemeral variant leaves
the store — user list, its order, and the id counter — completely unchanged. -/
theorem c5_failed_ops_leave_store_unchanged :
    ∀ urlOk st p userId,
      (∀ e, (createUser urlOk st p).1 = .error e → (createUser urlOk st p).2 = st) ∧
      (∀ e, (updateUser urlOk st userId p).1 = .error e →
        (updateUser urlOk st userId p).2 = st) ∧
      ((deleteUser st userId).1 = .error () → (deleteUser st userId).2 = st) :=
  fun _ _ _ _ =>
    ⟨fun _ h => createUser_error_state h,
     fun _ h => updateUser_error_state h,
     fun h => deleteUser_error_state h⟩

theorem c5_witness :
    (createUser urlAlwaysOk initialState { name := none, email := none, image := none }).2 =
      initialState ∧
    (updateUser urlAlwaysOk initialState (jsStr "999")
        { name := none, email := none, image := none }).2 = initialState ∧
    (deleteUser initialState (jsStr "999")).2 = initialState := by
  refine ⟨?_, ?_, ?_⟩
  · exact (c5_failed_ops_leave_store_unchanged urlAlwaysOk initialState
      { name := none, email := none, image := none } (jsStr "999")).1 .missingFields (by decide)
  · exact (c5_failed_ops_leave_store_unchanged urlAlwaysOk initialState
      { name := none, email := none, image := none } (jsStr "999")).2.1 .notFound (by decide)
  · exact (c5_failed_ops_leave_store_unchanged urlAlwaysOk initialState
      { name := none, email := none, image := none } (jsStr "999")).2.2 (by decide)

/-- C10: duplicate detection lowercases both the stored and the submitted
email before comparing, so the create duplicate check fires exactly when some
stored email matches case-insensitively — even though the seeded store holds
the non-lowercased email `"Tanjiro@DS.com"`. -/
theorem c10_duplicate_case_insensitive :
    (∃ u ∈ initialState.users, u.email = jsStr "Tanjiro@DS.com" ∧
      u.email ≠ jsToLower u.email) ∧
    (∀ urlOk st p e, truthy p.name = true → p.email = some e →
      emailRegexTest e = true →
      ((createUser urlOk st p).1 = .error .duplicateEmail ↔
        ∃ u ∈ st.users, jsToLower u.email = jsToLower (jsTrim e))) := by
  constructor
  · decide
  · intro urlOk st p e hname hpe hre
    have hemail : truthy p.email = true := by
      rw [hpe]
      exact truthy_some_of_ne_nil (emailRegexTest_ne_nil hre)
    have hre' : emailRegexTest (p.email.getD []) = true := by
      rw [hpe]
      simpa using hre
    constructor
    · intro h
      by_contra hno
      push_neg at hno
      have hdup : jsFind (createDupPred (p.email.getD [])) st.users = none := by
        apply jsFind_eq_none.mpr
        intro u hu
        unfold createDupPred
        rw [hpe]
        simp only [Option.getD_some, decide_eq_false_iff_not]
        exact hno u hu
      have hc : createUser urlOk st p = _ := createUser_past_dup hname hemail hre' hdup
      rw [hc] at h
      split at h <;> simp at h
    · rintro ⟨u, hu, hlow⟩
      have hs : (jsFind (createDupPred (p.email.getD [])) st.users).isSome = true := by
        apply jsFind_isSome_iff.mpr
        refine ⟨u, hu, ?_⟩
        unfold createDupPred
        rw [hpe]
        simp only [Option.getD_some, decide_eq_true_eq]
        exact hlow
      rw [createUser_duplicate hname hemail hre' hs]

theorem c10_witness :
    (createUser urlAlwaysOk initialState
      { name := some (jsStr "X"), email := some (jsStr "TANJIRO@ds.COM"),
        image := none }).1 = .error .duplicateEmail := by
  exact (c10_duplicate_case_insensitive.2 urlAlwaysOk initialState
    { name := some (jsStr "X"), email := some (jsStr "TANJIRO@ds.COM"), image := none }
    (jsStr "TANJIRO@ds.COM") (by decide) rfl (by decide)).mpr
    ⟨initialUsers[1], by decide, by decide⟩

/-- C6: in every reachable store state, creating with an email already present
(case-insensitively) fails with `DuplicateEmailError` leaving the store
unchanged; an update fails with `DuplicateEmailError` exactly when a user with
a different id already holds the new email; and updating a user to its own
current email succeeds. -/
theorem c6_duplicate_email_semantics :
    ∀ st, Reachable st →
      (∀ urlOk p u e, u ∈ st.users → truthy p.name = true → p.email = some e →
        jsToLower e = jsToLower u.email →
        createUser urlOk st p = (.error .duplicateEmail, st)) ∧
      (∀ urlOk p userId idx e, jsFindIndex (idPred userId) st.users = some idx →
        truthy p.name = true → p.email = some e → emailRegexTest e = true →
        ((updateUser urlOk st userId p).1 = .error .duplicateEmail ↔
          ∃ v ∈ st.users, jsToLower v.email = jsToLower (jsTrim e) ∧ v._id ≠ userId)) ∧
      (∀ urlOk u n, u ∈ st.users → n ≠ [] →
        ∃ v, (updateUser urlOk st u._id
          { name := some n, email := some u.email, image := none }).1 = .ok v) := by
  intro st hreach
  have inv := inv_reachable hreach
  refine ⟨?_, ?_, ?_⟩
  · intro urlOk p u e hu hname hpe hlow
    have hreu : emailRegexTest u.email = true := inv.emails u hu
    have hree : emailRegexTest e = true := by
      rw [← emailRegexTest_lower e, hlow, emailRegexTest_lower]
      exact hreu
    have htrim : jsTrim e = e := jsTrim_of_emailRegexTest hree
    have hemail : truthy p.email = true := by
      rw [hpe]
      exact truthy_some_of_ne_nil (emailRegexTest_ne_nil hree)
    have hre' : emailRegexTest (p.email.getD []) = true := by
      rw [hpe]
      simpa using hree
    apply createUser_duplicate hname hemail hre'
    apply jsFind_isSome_iff.mpr
    refine ⟨u, hu, ?_⟩
    unfold createDupPred
    rw [hpe]
    simp only [Option.getD_some, decide_eq_true_eq]
    rw [htrim, hlow]
  · intro urlOk p userId idx e hfi hname hpe hree
    have hemail : truthy p.email = true := by
      rw [hpe]
      exact truthy_some_of_ne_nil (emailRegexTest_ne_nil hree)
    have hre' : emailRegexTest (p.email.getD []) = true := by
      rw [hpe]
      simpa using hree
    constructor
    · intro h
      by_contra hno
      push_neg at hno
      have hdup : jsFind (updateDupPred (p.email.getD []) userId) st.users = none := by
        apply jsFind_eq_none.mpr
        intro v hv
        unfold updateDupPred
        rw [hpe]
        simp only [Option.getD_some]
        by_cases hvl : jsToLower v.email = jsToLower (jsTrim e)
        · have hvid := hno v hv hvl
          simp [hvl, hvid]
        · simp [hvl]
      rcases updateUser_past_dup hfi hname hemail hre' hdup with ⟨old, hget, hc⟩
      rw [hc] at h
      split at h <;> simp at h
    · rintro ⟨v, hv, hvl, hvne⟩
      have hs : (jsFind (updateDupPred (p.email.getD []) userId) st.users).isSome = true := by
        apply jsFind_isSome_iff.mpr
        refine ⟨v, hv, ?_⟩
        unfold updateDupPred
        rw [hpe]
        simp [hvl, hvne]
      rw [updateUser_duplicate hfi hname hemail hre' hs]
  · intro urlOk u n hu hn
    have hreu : emailRegexTest u.email = true := inv.emails u hu
    have htrim : jsTrim u.email = u.email := jsTrim_of_emailRegexTest hreu
    have hname : truthy (Payload.mk (some n) (some u.email) none).name = true :=
      truthy_some_of_ne_nil hn
    have hemail : truthy (Payload.mk (some n) (some u.email) none).email = true :=
      truthy_some_of_ne_nil (emailRegexTest_ne_nil hreu)
    have hre' : emailRegexTest ((Payload.mk (some n) (some u.email) none).email.getD []) =
        true := by simpa using hreu
    have hpredu : idPred u._id u = true := by simp [idPred]
    rcases jsFindIndex_mem_some hu hpredu with ⟨idx, hfi⟩
    have hdup : jsFind (updateDupPred
        ((Payload.mk (some n) (some u.email) none).email.getD []) u._id) st.users = none := by
      apply jsFind_eq_none.mpr
      intro v hv
      unfold updateDupPred
      simp only [Option.getD_some]
      by_cases hvl : jsToLower v.email = jsToLower (jsTrim u.email)
      · have hveq : v = u := by
          apply List.inj_on_of_nodup_map inv.emailsNodup hv hu
          show jsToLower v.email = jsToLower u.email
          rw [hvl, htrim]
        simp [hvl, hveq]
      · simp [hvl]
    rcases updateUser_past_dup hfi hname hemail hre' hdup with ⟨old, hget, hc⟩
    refine ⟨updatedOf old (Payload.mk (some n) (some u.email) none), ?_⟩
    have himg : ¬ (truthy (Payload.mk (some n) (some u.email) none).image = true ∧
        jsTrim ((Payload.mk (some n) (some u.email) none).image.getD []) ≠ [] ∧
        ¬ urlOk (jsTrim ((Payload.mk (some n) (some u.email) none).image.getD [])) =
          true) := by
      rintro ⟨h1, _, _⟩
      simp [truthy] at h1
    rw [hc, if_neg himg]

theorem c6_witness :
    createUser urlAlwaysOk initialState
        { name := some (jsStr "Z"), email := some (jsStr "dakshs112@gmail.com"),
          image := none } =
      (.error .duplicateEmail, initialState) ∧
    (∃ v, (updateUser urlAlwaysOk initialState (jsStr "1")
        { name := some (jsStr "Daksh"), email := some (jsStr "dakshs112@gmail.com"),
          image := none }).1 = .ok v) := by
  have h := c6_duplicate_email_semantics initialState Relation.ReflTransGen.refl
  constructor
  · exact h.1 urlAlwaysOk _ initialUsers[0] (jsStr "dakshs112@gmail.com")
      (by decide) (by decide) rfl (by decide)
  · exact h.2.2 urlAlwaysOk initialUsers[0] (jsStr "Daksh") (by decide) (by decide)

/-- C7: from any reachable state, a successful create stores exactly the
normalized payload — name trimmed, email trimmed and lowercased, image trimmed
or empty — under the freshly rendered counter id, and `findById` on that id
returns exactly that record. -/
theorem c7_create_findById_roundtrip :
    ∀ st, Reachable st → ∀ urlOk p nu st2,
      createUser urlOk st p = (.ok nu, st2) →
      findById st2 nu._id = some nu ∧
      nu._id = natToUnits st.counter ∧
      nu.name = jsTrim (p.name.getD []) ∧
      nu.email = jsToLower (jsTrim (p.email.getD [])) ∧
      nu.image = (if truthy p.image = true then jsTrim (p.image.getD []) else []) := by
  intro st hreach urlOk p nu st2 hc
  have inv := inv_reachable hreach
  rcases createUser_split urlOk st p with ⟨⟨e, he⟩, _⟩ | ⟨_, _, _, _, hc2⟩
  · rw [hc] at he
    exact absurd he (by simp)
  · rw [hc] at hc2
    have h1 : Except.ok nu = Except.ok (newUserOf st p) := congrArg Prod.fst hc2
    have hst2 : st2 = { users := st.users ++ [newUserOf st p], counter := st.counter + 1 } :=
      congrArg Prod.snd hc2
    have hnu : nu = newUserOf st p := by simpa using h1
    subst hnu
    subst hst2
    refine ⟨?_, rfl, rfl, rfl, rfl⟩
    show jsFind (idPred (newUserOf st p)._id) (st.users ++ [newUserOf st p]) =
      some (newUserOf st p)
    rw [jsFind_append_of_none]
    · simp [jsFind, idPred]
    · intro v hv
      unfold idPred
      simp only [decide_eq_false_iff_not]
      rcases inv.ids v hv with ⟨n, hn1, hn2, hn3⟩
      rw [hn3]
      show ¬ natToUnits n = natToUnits st.counter
      intro hc3
      have := natToUnits_inj hn1 inv.counter_pos hc3
      omega

theorem c7_witness :
    findById (createUser urlAlwaysOk initialState
        { name := some (jsStr "Ann"), email := some (jsStr "ANN@EX.com"),
          image := some [] }).2 (jsStr "3") =
      some ({ _id := jsStr "3", name := jsStr "Ann", email := jsStr "ann@ex.com",
              image := [] } : UserRec) := by
  have h := c7_create_findById_roundtrip initialState Relation.ReflTransGen.refl
    urlAlwaysOk
    { name := some (jsStr "Ann"), email := some (jsStr "ANN@EX.com"), image := some [] }
    { _id := jsStr "3", name := jsStr "Ann", email := jsStr "ann@ex.com", image := [] }
    ⟨initialUsers ++ [⟨jsStr "3", jsStr "Ann", jsStr "ann@ex.com", []⟩], 4⟩ (by decide)
  exact h.1

/-- C8: in every reachable state the stored ids are pairwise distinct; a
successful create assigns the decimal rendering of the current counter as id
and increments the counter; and the id of any user present in a reachable
state is never assigned again by a create performed in that state or any later
one — deleted ids are never reissued. -/
theorem c8_ids_monotone_never_reused :
    ∀ st, Reachable st →
      (st.users.map UserRec._id).Nodup ∧
      (∀ urlOk p nu st2, createUser urlOk st p = (.ok nu, st2) →
        nu._id = natToUnits st.counter ∧ st2.counter = st.counter + 1) ∧
      (∀ st' urlOk p nu st2, ReachableFrom st st' →
        createUser urlOk st' p = (.ok nu, st2) →
        ∀ u ∈ st.users, nu._id ≠ u._id) := by
  intro st hreach
  have inv := inv_reachable hreach
  have hassign : ∀ s (urlOk : JSString → Bool) p (nu : UserRec) s2,
      createUser urlOk s p = (.ok nu, s2) →
      nu._id = natToUnits s.counter ∧ s2.counter = s.counter + 1 := by
    intro s urlOk p nu s2 hc
    rcases createUser_split urlOk s p with ⟨⟨e, he⟩, _⟩ | ⟨_, _, _, _, hc2⟩
    · rw [hc] at he
      exact absurd he (by simp)
    · rw [hc] at hc2
      have h1 : Except.ok nu = Except.ok (newUserOf s p) := congrArg Prod.fst hc2
      have h2 : s2 = { users := s.users ++ [newUserOf s p], counter := s.counter + 1 } :=
        congrArg Prod.snd hc2
      have hnu : nu = newUserOf s p := by simpa using h1
      subst hnu
      exact ⟨rfl, by rw [h2]⟩
  refine ⟨inv.idsNodup, hassign st, ?_⟩
  intro st' urlOk p nu st2 hrf hc u hu
  have inv' := inv_reachableFrom inv hrf
  have hcle := reachableFrom_counter_le hrf
  have hid := (hassign st' urlOk p nu st2 hc).1
  rcases inv.ids u hu with ⟨n, hn1, hn2, hn3⟩
  rw [hid, hn3]
  intro hc3
  have := natToUnits_inj inv'.counter_pos hn1 hc3
  omega

theorem c8_witness :
    (initialState.users.map UserRec._id).Nodup ∧ jsStr "3" ≠ jsStr "1" := by
  have h := c8_ids_monotone_never_reused initialState Relation.ReflTransGen.refl
  refine ⟨h.1, ?_⟩
  exact h.2.2 initialState urlAlwaysOk
    { name := some (jsStr "A"), email := some (jsStr "a@b.c"), image := none }
    { _id := jsStr "3", name := jsStr "A", email := jsStr "a@b.c", image := [] }
    ⟨initialUsers ++ [⟨jsStr "3", jsStr "A", jsStr "a@b.c", []⟩], 4⟩
    Relation.ReflTransGen.refl (by decide) initialUsers[0] (by decide)

/-- C9: in every reachable state, deleting an existing id removes exactly that
one record (the list splits around it and closes back up), a subsequent
`findById` for the id reports not-found, and a second delete of the same id
fails with `NotFoundError` leaving the store unchanged. -/
theorem c9_delete_semantics :
    ∀ st, Reachable st → ∀ userId u, u ∈ st.users → u._id = userId →
      ∃ l1 l2, st.users = l1 ++ u :: l2 ∧
        deleteUser st userId = (.ok u, ⟨l1 ++ l2, st.counter⟩) ∧
        findById ⟨l1 ++ l2, st.counter⟩ userId = none ∧
        deleteUser ⟨l1 ++ l2, st.counter⟩ userId = (.error (), ⟨l1 ++ l2, st.counter⟩) := by
  intro st hreach userId u hu hid
  have inv := inv_reachable hreach
  have hp : idPred userId u = true := by simp [idPred, hid]
  rcases jsFindIndex_mem_some hu hp with ⟨idx, hfi⟩
  rcases jsFindIndex_spec hfi with ⟨a, l1, l2, hl, hlen, hpa, hfirst⟩
  have hida : a._id = userId := by simpa [idPred] using hpa
  have hmema : a ∈ st.users := by
    rw [hl]
    exact List.mem_append_right _ (List.mem_cons_self _ _)
  have hau : u = a := by
    apply List.inj_on_of_nodup_map inv.idsNodup hu hmema
    show u._id = a._id
    rw [hid, hida]
  subst hau
  have hst : st = ⟨l1 ++ u :: l2, st.counter⟩ := by rw [← hl]
  have hall : ∀ v ∈ l1 ++ l2, idPred userId v = false := by
    intro v hv
    rcases List.mem_append.mp hv with hv | hv
    · exact hfirst v hv
    · have hnodup := inv.idsNodup
      rw [hl] at hnodup
      have hnotmem : u._id ∉ ((l1 ++ l2).map UserRec._id) :=
        ((map_nodup_middle _ _ _ _).mp hnodup).1
      unfold idPred
      simp only [decide_eq_false_iff_not]
      intro hc
      exact hnotmem (List.mem_map.mpr ⟨v, List.mem_append_right _ hv, hc.trans hid.symm⟩)
  have hfi2 : jsFindIndex (idPred userId) (l1 ++ u :: l2) = some l1.length := by
    rw [← hl, hlen]
    exact hfi
  refine ⟨l1, l2, hl, ?_, ?_, ?_⟩
  · rw [hst]
    exact deleteUser_success hfi2
  · exact jsFind_eq_none.mpr hall
  · exact deleteUser_notFound (jsFindIndex_eq_none.mpr hall)

theorem c9_witness :
    ∃ l1 l2, initialState.users = l1 ++ initialUsers[0] :: l2 ∧
      deleteUser initialState (jsStr "1") =
        (.ok initialUsers[0], ⟨l1 ++ l2, initialState.counter⟩) ∧
      findById ⟨l1 ++ l2, initialState.counter⟩ (jsStr "1") = none ∧
      deleteUser ⟨l1 ++ l2, initialState.counter⟩ (jsStr "1") =
        (.error (), ⟨l1 ++ l2, initialState.counter⟩) :=
  c9_delete_semantics initialState Relation.ReflTransGen.refl (jsStr "1")
    initialUsers[0] (by decide) (by decide)

end CardMaster
